import Mathlib

/- Verification of the sphinxcontrib-dotnetdomain core:
   signature parsing (regular-expression grammar over declaration strings),
   the object registry (a Python dict keyed by fully-qualified name), the
   reference resolver `DotNetDomain.find_obj`, document eviction
   `DotNetDomain.clear_doc`, and duplicate registration in
   `DotNetObject.add_target_and_index`.

   Strings are modelled as `List Char`.  Python regular expressions are
   modelled by a small regex datatype `RE` together with `runF`, a
   backtracking matcher that returns every match of a pattern against a
   prefix of the input, in Python's backtracking priority order (the first
   element of the returned list is the match `re.match` produces).  Greedy
   and lazy quantifiers order their candidate lists accordingly.  `runF`
   carries a fuel argument for termination; fuel bounds only the recursion
   depth (each `star` unfolding consumes one unit), and the fuel supplied by
   `parse_signature` is far larger than the depth any match can reach. -/

/-- Characters of a Python string, as a list. -/
def strL (s : String) : List Char := s.data

abbrev Str := List Char

/-- ASCII reading of Python regex `\w` (word character). -/
def isWordChar (c : Char) : Bool := c.isAlphanum || c = '_'

/-- Character class `[\w\_\-]` used by the `name` sub-grammar. -/
def isNameChar (c : Char) : Bool := isWordChar c || c = '-'

/-- ASCII reading of Python regex `\s` (whitespace). -/
def isSpaceChar (c : Char) : Bool :=
  c = ' ' || c = '\t' || c = '\n' || c = '\r' || c = '\x0b' || c = '\x0c'

/-- Python regex `\d`. -/
def isDigitChar (c : Char) : Bool := c.isDigit

/-- Python regex `.` without DOTALL: any character but a newline. -/
def isAnyChar (c : Char) : Bool := c ≠ '\n'

/-- The backtick character (the generic-arity marker of the `.NET`
dimension syntax). -/
def btick : Char := Char.ofNat 96

/-- Named capture groups appearing in the domain's signature patterns. -/
inductive GroupName where
  | pfx        -- (?P<prefix>...)
  | member     -- (?P<member>...)
  | arguments  -- (?P<arguments>...)
deriving DecidableEq, Repr

/-- Captured named groups of one match attempt (`None` = group did not
participate in the match, as in Python's `groupdict`). -/
structure Caps where
  pfx : Option Str := none
  member : Option Str := none
  arguments : Option Str := none
deriving DecidableEq, Repr

/-- Record a capture for one named group. -/
def Caps.set (k : Caps) : GroupName → Str → Caps
  | .pfx, v => { k with pfx := some v }
  | .member, v => { k with member := some v }
  | .arguments, v => { k with arguments := some v }

/-- Combine captures of two sequenced sub-matches; a group set by the
later part wins (each named group occurs once in the domain's patterns,
so the direction is immaterial there). -/
def Caps.merge (k1 k2 : Caps) : Caps :=
  { pfx := match k2.pfx with | some v => some v | none => k1.pfx
  , member := match k2.member with | some v => some v | none => k1.member
  , arguments := match k2.arguments with | some v => some v | none => k1.arguments }

/-- Regular expressions, covering exactly the constructs used by the
domain's verbose patterns: character classes, sequencing, prioritized
alternation, greedy/lazy star and option, named groups, negative
lookahead, and the `$` anchor. -/
inductive RE where
  | eps
  | eos                            -- `$`
  | cls (p : Char → Bool)          -- one character of a class
  | seq (a b : RE)
  | alt (a b : RE)                 -- `a|b`, `a` preferred
  | star (lzy : Bool) (a : RE)     -- `a*` (greedy) or `a*?` (lazy)
  | opt (lzy : Bool) (a : RE)      -- `a?` or `a??`
  | grp (g : GroupName) (a : RE)   -- named capturing group
  | nla (a : RE)                   -- negative lookahead `(?!a)`

/-- Single literal character. -/
def chrRE (c : Char) : RE := .cls (fun x => x = c)

/-- Literal character sequence. -/
def litRE : Str → RE
  | [] => .eps
  | c :: cs => .seq (chrRE c) (litRE cs)

/-- Greedy `a+`. -/
def plusG (a : RE) : RE := .seq a (.star false a)

/-- Lazy `a+?`. -/
def plusL (a : RE) : RE := .seq a (.star true a)

/-- All matches of `re` against a prefix of `s`, in backtracking priority
order: each element is (consumed characters, captures, remaining input).
Python's `re.match` result corresponds to the head of this list.  `star`
repetition only continues after an iteration that consumed input (the
bodies of every starred sub-pattern in the domain's grammars consume at
least one character, so this drops nothing Python would try). -/
def runF : Nat → RE → Str → List (Str × Caps × Str)
  | 0, _, _ => []
  | _ + 1, .eps, s => [([], {}, s)]
  | _ + 1, .eos, s => if s = [] then [([], {}, [])] else []
  | _ + 1, .cls p, s =>
    match s with
    | [] => []
    | c :: rest => if p c then [([c], {}, rest)] else []
  | f + 1, .seq a b, s =>
    (runF f a s).flatMap fun x =>
      (runF f b x.2.2).map fun y => (x.1 ++ y.1, x.2.1.merge y.2.1, y.2.2)
  | f + 1, .alt a b, s => runF f a s ++ runF f b s
  | f + 1, .star lzy a, s =>
    let deeper :=
      (runF f a s).flatMap fun x =>
        if x.1 = [] then []
        else (runF f (.star lzy a) x.2.2).map fun y =>
          (x.1 ++ y.1, x.2.1.merge y.2.1, y.2.2)
    if lzy then ([], {}, s) :: deeper else deeper ++ [([], {}, s)]
  | f + 1, .opt lzy a, s =>
    if lzy then ([], {}, s) :: runF f a s else runF f a s ++ [([], {}, s)]
  | f + 1, .grp g a, s =>
    (runF f a s).map fun x => (x.1, x.2.1.set g x.1, x.2.2)
  | f + 1, .nla a, s =>
    if (runF f a s).isEmpty then [([], {}, s)] else []

/- Transcription of the module-level `_re_parts` grammar table
   (sphinxcontrib/dotnetdomain.py lines 27-47). -/

/-- Open bracket of a generic parameter list, `[\<\{]`. -/
def isOpenBr (c : Char) : Bool := c = '<' || c = '{'

/-- Close bracket of a generic parameter list, `[\>\}]`. -/
def isCloseBr (c : Char) : Bool := c = '>' || c = '}'

/-- `_re_parts['type_dimension']`: `(?:\`\d+)?(?:\`\`\d+)?`. -/
def type_dimension : RE :=
  .seq (.opt false (.seq (chrRE btick) (plusG (.cls isDigitChar))))
       (.opt false (.seq (chrRE btick) (.seq (chrRE btick) (plusG (.cls isDigitChar)))))

/-- One generic parameter, `(?:[\w]+|[\<\{].+?[\>\}])`. -/
def genericParam : RE :=
  .alt (plusG (.cls isWordChar))
       (.seq (.cls isOpenBr) (.seq (plusL (.cls isAnyChar)) (.cls isCloseBr)))

/-- `_re_parts['type_generic']`:
`(?:[\<\{](?:[\w]+|[\<\{].+?[\>\}])(?:,\s?(?:[\w]+|[\<\{].+?[\>\}]))*?[\>\}])`
followed by the negative lookahead `(?![\<\{][^\>\}]+[\>\}])`. -/
def type_generic : RE :=
  .seq
    (.seq (.cls isOpenBr)
      (.seq genericParam
        (.seq
          (.star true
            (.seq (chrRE ',') (.seq (.opt false (.cls isSpaceChar)) genericParam)))
          (.cls isCloseBr))))
    (.nla (.seq (.cls isOpenBr)
      (.seq (plusG (.cls (fun c => !isCloseBr c))) (.cls isCloseBr))))

/-- `_re_parts['type']`: `(?:%(type_dimension)s|%(type_generic)s)`. -/
def typeRE : RE := .alt type_dimension type_generic

/-- `_re_parts['type_indexer']`: `(\[[\w\_\-\.]+?%(type)s\])?`
(the capturing group is unnamed, hence modelled as non-capturing). -/
def type_indexer : RE :=
  .opt false
    (.seq (chrRE '[')
      (.seq (plusL (.cls (fun c => isNameChar c || c = '.')))
        (.seq typeRE (chrRE ']'))))

/-- `_re_parts['name']`: `[\w\_\-]+?(?:%(type)s|%(type_indexer)s)`. -/
def nameRE : RE :=
  .seq (plusL (.cls isNameChar)) (.alt typeRE type_indexer)

/- The signature patterns all share the template
`^(?:(?P<prefix>.+)\.)? (?P<member>...) [(?:\((?P<arguments>[^)]*)\))?] $`,
differing in the member grammar and in whether the argument part is
present.  `mkPattern` builds that template. -/

/-- The `(?:(?P<prefix>.+)\.)?` part; `lzy` selects `.+?` over `.+`. -/
def pfxRE (lzy : Bool) : RE :=
  .opt false
    (.seq (.grp .pfx (if lzy then plusL (.cls isAnyChar) else plusG (.cls isAnyChar)))
      (chrRE '.'))

/-- The `(?:\((?P<arguments>[^)]*)\))?` part. -/
def argsRE : RE :=
  .opt false
    (.seq (chrRE '(')
      (.seq (.grp .arguments (.star false (.cls (fun c => c ≠ ')'))))
        (chrRE ')')))

/-- Common shape of the domain's signature patterns. -/
def mkPattern (lzyPfx : Bool) (memberRE : RE) (hasArgs : Bool) : RE :=
  .seq (pfxRE lzyPfx)
    (.seq (.grp .member memberRE)
      (.seq (if hasArgs then argsRE else .eps) .eos))

/-- `DotNetObjectNested.signature_pattern` (lines 280-283):
`^(?:(?P<prefix>.+)\.)?(?P<member>%(name)s)$`. -/
def DotNetObjectNested.signature_pattern : RE := mkPattern false nameRE false

/-- `DotNetCallable.signature_pattern` (lines 429-433):
`^(?:(?P<prefix>.+)\.)?(?P<member>%(name)s)(?:\((?P<arguments>[^)]*)\))?$`. -/
def DotNetCallable.signature_pattern : RE := mkPattern false nameRE true

/-- `DotNetConstructor.signature_pattern` (lines 484-488):
`^(?:(?P<prefix>.+)\.)?(?P<member>(?:\#ctor|%(name)s))(?:\((?P<arguments>[^)]*)\))?$`. -/
def DotNetConstructor.signature_pattern : RE :=
  mkPattern false (.alt (litRE (strL "#ctor")) nameRE) true

/- Operator grammar.  The class `DotNetOperator` (lines 557-561) carries no
signature pattern in the source tree here, while its unit tests exercise a
dedicated operator grammar; the pattern itself is therefore modelled from
the specification. -/

/-- A run of one to three symbolic (non-word, non-space) characters,
greedy, longest attempted first. -/
def symRun : RE :=
  .seq (.cls (fun c => !isWordChar c && !isSpaceChar c))
    (.opt false
      (.seq (.cls (fun c => !isWordChar c && !isSpaceChar c))
        (.opt false (.cls (fun c => !isWordChar c && !isSpaceChar c)))))

/-- A fully qualified type name: dot-separated `name` tokens. -/
def fqNameRE : RE := .seq nameRE (.star false (.seq (chrRE '.') nameRE))

/-- The `operator` keyword followed by whitespace. -/
def opKeyword : RE := .seq (litRE (strL "operator")) (plusG (.cls isSpaceChar))

/-- Modelled from the spec: the member grammar of
`DotNetOperator.signature_pattern`, which is missing from the source tree
(the class body sets only display names; the repository's signature tests
exercise it).  Spec section 4.2: the member matches one of (c) the literal
`implicit operator` or `explicit operator` followed by a fully qualified
destination type name, captured as part of the member, (b) the literal
`operator` keyword followed by one of a small fixed set of overloadable
operators (`true`, `false`, and short symbolic runs of 1-3 non-word
characters, covering equality and comparison), or (a) the general name
grammar; argument parsing still applies afterward. -/
def opMemberRE : RE :=
  .alt
    (.seq (.alt (litRE (strL "implicit")) (litRE (strL "explicit")))
      (.seq (plusG (.cls isSpaceChar)) (.seq opKeyword fqNameRE)))
    (.alt
      (.seq opKeyword (.alt (litRE (strL "true")) (.alt (litRE (strL "false")) symRun)))
      nameRE)

/-- Modelled from the spec: `DotNetOperator.signature_pattern`, the shared
template over the operator member grammar; the qualifying-prefix part is
non-greedy so that the operator keyword phrase, when present, is preferred
over splitting the declaration at a later dot. -/
def DotNetOperator.signature_pattern : RE := mkPattern true opMemberRE true

/-- `DotNetSignature` (lines 50-77): the three-field record produced by
`parse_signature`.  `pfx` is the source's `prefix` attribute. -/
structure DotNetSignature where
  pfx : Option Str := none
  member : Option Str := none
  arguments : Option (List Str) := none
deriving DecidableEq, Repr

/-- `DotNetSignature.full_name` (lines 70-74): `prefix + "." + member` when
the prefix is set, else `member` alone.  The value is optional because the
member attribute itself is optional; joining a set prefix with an absent
member (a `TypeError` in the source) is modelled as `none`. -/
def DotNetSignature.full_name : DotNetSignature → Option Str
  | ⟨some p, some m, _⟩ => some (p ++ '.' :: m)
  | ⟨some _, none, _⟩ => none
  | ⟨none, m, _⟩ => m

/-- Left-to-right worker for `re.split(r'\,\s+', text)`: `afterSep` is
true while inside the whitespace run of a just-matched separator (the
greedy `\s+` absorbs it all); `acc` holds the current token, reversed. -/
def splitCSAux (afterSep : Bool) (acc : Str) : Str → List Str
  | [] => [acc.reverse]
  | c :: rest =>
    if afterSep && isSpaceChar c then
      splitCSAux true acc rest
    else if c = ',' && (match rest with | r :: _ => isSpaceChar r | [] => false) then
      acc.reverse :: splitCSAux true [] rest
    else
      splitCSAux false (c :: acc) rest

/-- `re.split(r'\,\s+', text)` (line 144): split on each comma that is
followed by at least one whitespace character, consuming the maximal
whitespace run; a bare comma does not split. -/
def splitCS (acc : Str) (s : Str) : List Str := splitCSAux false acc s

/-- Fuel passed to `runF`; far above the recursion depth reachable on an
input of this length (depth is bounded by the pattern's syntactic depth
for every character consumed). -/
def runFuel (s : Str) : Nat := 500 * (s.length + 1)

/-- `DotNetObject.parse_signature` (lines 118-150): match the pattern
against the declaration, read the named groups, and split the argument
group when it participated in the match.  A failed match (a `ValueError`
in the source) is `none`. -/
def parse_signature (pat : RE) (s : Str) : Option DotNetSignature :=
  match (runF (runFuel s) pat s).head? with
  | none => none
  | some x =>
    some { pfx := x.2.1.pfx
         , member := x.2.1.member
         , arguments := x.2.1.arguments.map (splitCS []) }

/- The object registry.  `self.env.domaindata['dn']['objects']` is a Python
dict mapping a fully-qualified name to `(docname, objtype)`; it is modelled
as an insertion-ordered association list with unique keys, which is how a
Python dict iterates. -/

/-- One registry entry: fullname -> (docname, obj_type). -/
structure ObjEntry where
  name : Str
  doc : Str
  objtype : Str
deriving DecidableEq, Repr

/-- Dict lookup `objects[k]` / `objects.get(k)`. -/
def dictGet : List ObjEntry → Str → Option (Str × Str)
  | [], _ => none
  | e :: rest, k => if e.name = k then some (e.doc, e.objtype) else dictGet rest k

/-- Dict membership `k in objects`. -/
def dictHas (objects : List ObjEntry) (k : Str) : Bool := (dictGet objects k).isSome

/-- Dict update `objects[k] = v`: replaces in place when the key exists
(keeping its iteration position, as a Python dict does), else appends. -/
def dictSet : List ObjEntry → Str → Str × Str → List ObjEntry
  | [], k, v => [⟨k, v.1, v.2⟩]
  | e :: rest, k, v =>
    if e.name = k then ⟨k, v.1, v.2⟩ :: rest else e :: dictSet rest k v

/-- Dict deletion `del objects[k]`: removes the (unique) entry for `k`. -/
def dictDel : List ObjEntry → Str → List ObjEntry
  | [], _ => []
  | e :: rest, k => if e.name = k then rest else e :: dictDel rest k

/-- The registry keys are pairwise distinct (invariant of a Python dict). -/
def keysNodup (objects : List ObjEntry) : Prop :=
  (objects.map (fun e => e.name)).Nodup

/-- Domain state touched by registration: the objects dict together with
the stream of duplicate-definition warnings; one warning records
`(found_type, full_name, found_doc)` of the pre-existing entry. -/
structure DomainState where
  objects : List ObjEntry
  warnings : List (Str × Str × Str)
deriving DecidableEq, Repr

/-- Registry update of `DotNetObject.add_target_and_index` (lines 224-238),
reached when the target id is new to the current document: look up
`objects[full_name]`; if an entry exists, emit a duplicate-definition
warning; in either case (the `finally` block) write
`objects[full_name] = (docname, objtype)`. -/
def register (st : DomainState) (full_name docname objtype : Str) : DomainState :=
  match dictGet st.objects full_name with
  | some fo =>
    { objects := dictSet st.objects full_name (docname, objtype)
    , warnings := st.warnings ++ [(fo.2, full_name, fo.1)] }
  | none =>
    { objects := dictSet st.objects full_name (docname, objtype)
    , warnings := st.warnings }

/-- The loop of `DotNetDomain.clear_doc` (lines 709-713): iterate over a
snapshot of the items and delete from the live dict each entry whose
originating document is the cleared one. -/
def clearLoop (docname : Str) : List ObjEntry → List ObjEntry → List ObjEntry
  | [], acc => acc
  | e :: rest, acc =>
    clearLoop docname rest (if e.doc = docname then dictDel acc e.name else acc)

/-- `DotNetDomain.clear_doc` (lines 709-713). -/
def clear_doc (docname : Str) (objects : List ObjEntry) : List ObjEntry :=
  clearLoop docname objects objects

/- The reference resolver `DotNetDomain.find_obj` (lines 715-761).  The
role-to-object-types step (lines 731-733, `self.objtypes_for_role`) is
resolved before the search proper; the search is modelled over the
resulting `object_types` list.  Both early returns of the source (`[]` for
an empty name and `None` for no match) are modelled as `none`. -/

/-- Python truthiness of the optional current prefix (`prefix and ...`):
false for `None` and for the empty string. -/
def pfxTruthy : Option Str → Bool
  | some p => !p.isEmpty
  | none => false

/-- The test `key in objects and objects[key][1] in object_types`. -/
def kindMatches (objects : List ObjEntry) (object_types : List Str) (k : Str) : Bool :=
  match dictGet objects k with
  | some dt => object_types.contains dt.2
  | none => false

/-- The suffix-scan comprehension of exact-match mode (lines 748-749):
all registered keys, in registry iteration order, ending in `"." + name`.
No object-type condition appears in the comprehension. -/
def suffixMatches (objects : List ObjEntry) (name : Str) : List Str :=
  (objects.map (fun e => e.name)).filter (fun n => ('.' :: name).isSuffixOf n)

/-- `DotNetDomain.find_obj` (lines 715-761): strip one trailing `()`;
fail on an empty name; in exact mode (`searchorder == 1`) try the
prefix-compound key, then the bare name, both under the object-type
filter, then a suffix scan whose `matches.pop()` takes the *last*
comprehension element; in default mode try the bare name then the
compound key, with no object-type filter and no suffix scan. -/
def find_obj (objects : List ObjEntry) (object_types : List Str)
    (pfx : Option Str) (name0 : Str) (searchorder : Nat) :
    Option (Str × (Str × Str)) :=
  let name := if (strL "()").isSuffixOf name0 then name0.take (name0.length - 2) else name0
  if name.isEmpty then none
  else
    let fullname := match pfx with
      | some p => p ++ '.' :: name
      | none => name
    let newname : Option Str :=
      if searchorder = 1 then
        if pfxTruthy pfx && kindMatches objects object_types fullname then
          some fullname
        else if kindMatches objects object_types name then
          some name
        else
          (suffixMatches objects name).getLast?
      else
        if dictHas objects name then some name
        else if pfxTruthy pfx && dictHas objects fullname then some fullname
        else none
    match newname with
    | none => none
    | some nn => some (nn, (dictGet objects nn).getD ([], []))

/-- Naming part of `DotNetObject.handle_signature` (lines 168-183): parse
the declaration; when the rST nesting context provides a current prefix
(`self.env.ref_context['dn:prefix']`), it *replaces* whatever prefix was
written in the declaration; the signature's `full_name` is then the
registered key. -/
def handle_signature (pat : RE) (ctx : Option Str) (s : Str) : Option DotNetSignature :=
  match parse_signature pat s with
  | none => none
  | some sig =>
    match ctx with
    | some p => some { sig with pfx := some p }
    | none => some sig

/-- A pattern fragment containing no named capturing group. -/
def RE.noGrp : RE → Bool
  | .eps => true
  | .eos => true
  | .cls _ => true
  | .seq a b => a.noGrp && b.noGrp
  | .alt a b => a.noGrp && b.noGrp
  | .star _ a => a.noGrp
  | .opt _ a => a.noGrp
  | .grp _ _ => false
  | .nla a => a.noGrp

/- Helper lemmas about the dict model. -/

/-- Looking up a key just written returns the written value. -/
theorem dictGet_dictSet_self (objects : List ObjEntry) (k : Str) (v : Str × Str) :
    dictGet (dictSet objects k v) k = some v := by
  induction objects with
  | nil => simp [dictSet, dictGet]
  | cons e rest ih =>
    by_cases h : e.name = k
    · simp [dictSet, dictGet, h]
    · simp [dictSet, dictGet, h, ih]

/-- Under unique keys, an entry of the dict is what lookup of its key
returns. -/
theorem dictGet_of_mem (objects : List ObjEntry) (e : ObjEntry)
    (hnd : keysNodup objects) (he : e ∈ objects) :
    dictGet objects e.name = some (e.doc, e.objtype) := by
  induction objects with
  | nil => cases he
  | cons x rest ih =>
    rcases List.mem_cons.mp he with h | h
    · subst h; simp [dictGet]
    · have hx : x.name ≠ e.name := by
        intro hEq
        have hmem : e.name ∈ rest.map (fun a => a.name) :=
          List.mem_map_of_mem (fun a => a.name) h
        have hnotin := (List.nodup_cons.mp hnd).1
        simp only at hnotin
        rw [hEq] at hnotin
        exact hnotin hmem
      have hnd' : keysNodup rest := (List.nodup_cons.mp hnd).2
      simp [dictGet, hx, ih hnd' h]

/-- Deleting a key different from the head's passes over the head. -/
theorem dictDel_cons_ne (e : ObjEntry) (acc : List ObjEntry) (k : Str)
    (h : e.name ≠ k) : dictDel (e :: acc) k = e :: dictDel acc k := by
  simp [dictDel, h]

/-- The eviction loop does not touch an accumulator head whose key never
occurs in the remaining snapshot. -/
theorem clearLoop_cons (d : Str) (snap : List ObjEntry) (e : ObjEntry)
    (acc : List ObjEntry) (h : ∀ x ∈ snap, x.name ≠ e.name) :
    clearLoop d snap (e :: acc) = e :: clearLoop d snap acc := by
  induction snap generalizing acc with
  | nil => simp [clearLoop]
  | cons x rest ih =>
    have hx : x.name ≠ e.name := h x (List.mem_cons_self x rest)
    have hrest : ∀ y ∈ rest, y.name ≠ e.name :=
      fun y hy => h y (List.mem_cons_of_mem x hy)
    by_cases hd : x.doc = d
    · simp only [clearLoop, if_pos hd,
        dictDel_cons_ne e acc x.name (fun hEq => hx hEq.symm)]
      exact ih _ hrest
    · simp only [clearLoop, if_neg hd]
      exact ih _ hrest

/-- Key uniqueness survives filtering. -/
theorem keysNodup_filter (objects : List ObjEntry) (p : ObjEntry → Bool)
    (hnd : keysNodup objects) : keysNodup (objects.filter p) := by
  unfold keysNodup at hnd ⊢
  exact List.Nodup.sublist (List.Sublist.map _ (List.filter_sublist objects)) hnd

/-- Eviction equals filtering out the cleared document's entries. -/
theorem clear_doc_eq_filter (d : Str) (objects : List ObjEntry)
    (hnd : keysNodup objects) :
    clear_doc d objects = objects.filter (fun e => !decide (e.doc = d)) := by
  unfold clear_doc
  induction objects with
  | nil => simp [clearLoop]
  | cons e rest ih =>
    have hhead : e.name ∉ rest.map (fun a => a.name) := by
      have := (List.nodup_cons.mp hnd).1
      simpa using this
    have hnd' : keysNodup rest := (List.nodup_cons.mp hnd).2
    by_cases hd : e.doc = d
    · have hdel : dictDel (e :: rest) e.name = rest := by simp [dictDel]
      simp only [clearLoop, if_pos hd, hdel, List.filter_cons, hd]
      simpa using ih hnd'
    · have hcons : clearLoop d rest (e :: rest) = e :: clearLoop d rest rest := by
        refine clearLoop_cons d rest e rest (fun x hx hEq => ?_)
        exact hhead (hEq ▸ List.mem_map_of_mem (fun a => a.name) hx)
      simp only [clearLoop, if_neg hd, hcons]
      rw [ih hnd']
      simp [List.filter_cons, hd]

/-- Claim C1, counterexample: registering `A.B.Target` from `doc1` and then
from `doc2` emits one duplicate warning, but the registry then maps the
name to `doc2` — the id of the second registration, not the first, so the
first registration does not win. -/
theorem claim_C1_counterexample :
    (register (register ⟨[], []⟩ (strL "A.B.Target") (strL "doc1") (strL "method"))
        (strL "A.B.Target") (strL "doc2") (strL "method")).warnings.length = 1 ∧
    dictGet (register (register ⟨[], []⟩ (strL "A.B.Target") (strL "doc1") (strL "method"))
        (strL "A.B.Target") (strL "doc2") (strL "method")).objects (strL "A.B.Target")
      = some (strL "doc2", strL "method") ∧
    (some (strL "doc2", strL "method") : Option (Str × Str))
      ≠ some (strL "doc1", strL "method") := by
  decide

/-- Claim C1 (amended): for a name not yet registered, the first
registration stores its document id and kind and emits no warning; a
second registration of the same name emits exactly one duplicate warning
recording the first registration's kind, name and document, and the
registry entry then maps to the document id and kind of the second
registration — the `finally` block always writes, so the last write wins,
but never silently. -/
theorem claim_C1_duplicate_warns_last_write_wins
    (st : DomainState) (fn d1 t1 d2 t2 : Str)
    (h : dictGet st.objects fn = none) :
    dictGet (register st fn d1 t1).objects fn = some (d1, t1) ∧
    (register st fn d1 t1).warnings = st.warnings ∧
    dictGet (register (register st fn d1 t1) fn d2 t2).objects fn = some (d2, t2) ∧
    (register (register st fn d1 t1) fn d2 t2).warnings = st.warnings ++ [(t1, fn, d1)] := by
  set st1 := register st fn d1 t1 with hst1
  have e1 : st1 = ⟨dictSet st.objects fn (d1, t1), st.warnings⟩ := by
    rw [hst1]; unfold register; rw [h]
  have h1 : dictGet st1.objects fn = some (d1, t1) := by
    rw [e1]; exact dictGet_dictSet_self _ _ _
  have e2 : register st1 fn d2 t2 =
      ⟨dictSet st1.objects fn (d2, t2), st1.warnings ++ [(t1, fn, d1)]⟩ := by
    unfold register; rw [h1]
  refine ⟨h1, ?_, ?_, ?_⟩
  · rw [e1]
  · rw [e2]; exact dictGet_dictSet_self _ _ _
  · rw [e2, e1]

/-- Claim C1 witness: the amended statement at a concrete pair of
registrations from `doc1` and `doc2`. -/
theorem claim_C1_witness :
    dictGet (register ⟨[], []⟩ (strL "T") (strL "doc1") (strL "method")).objects (strL "T")
      = some (strL "doc1", strL "method") ∧
    (register ⟨[], []⟩ (strL "T") (strL "doc1") (strL "method")).warnings
      = (⟨[], []⟩ : DomainState).warnings ∧
    dictGet (register (register ⟨[], []⟩ (strL "T") (strL "doc1") (strL "method"))
        (strL "T") (strL "doc2") (strL "method")).objects (strL "T")
      = some (strL "doc2", strL "method") ∧
    (register (register ⟨[], []⟩ (strL "T") (strL "doc1") (strL "method"))
        (strL "T") (strL "doc2") (strL "method")).warnings
      = (⟨[], []⟩ : DomainState).warnings ++ [(strL "method", strL "T", strL "doc1")] :=
  claim_C1_duplicate_warns_last_write_wins ⟨[], []⟩ (strL "T") (strL "doc1")
    (strL "method") (strL "doc2") (strL "method") (by decide)

/-- Claim C9: with unique registry keys, evicting document `d` turns the
registry into its filtering by `doc ≠ d`: every entry of the evicted
document is removed, every other entry is kept in place and its key still
resolves to its unchanged value. -/
theorem claim_C9_clear_doc_evicts (d : Str) (objects : List ObjEntry)
    (hnd : keysNodup objects) :
    clear_doc d objects = objects.filter (fun e => !decide (e.doc = d)) ∧
    (∀ e ∈ objects, e.doc = d → e ∉ clear_doc d objects) ∧
    (∀ e ∈ objects, e.doc ≠ d →
      e ∈ clear_doc d objects ∧
      dictGet (clear_doc d objects) e.name = some (e.doc, e.objtype)) := by
  have hfe := clear_doc_eq_filter d objects hnd
  refine ⟨hfe, ?_, ?_⟩
  · intro e _ hed hmem
    rw [hfe] at hmem
    have := (List.mem_filter.mp hmem).2
    simp [hed] at this
  · intro e he hed
    have hmem : e ∈ clear_doc d objects := by
      rw [hfe]
      exact List.mem_filter.mpr ⟨he, by simp [hed]⟩
    refine ⟨hmem, ?_⟩
    have hnd' : keysNodup (clear_doc d objects) := by
      rw [hfe]; exact keysNodup_filter objects _ hnd
    exact dictGet_of_mem _ e hnd' hmem

/-- Claim C9 witness: one entry from `d1` and one from `d2`; evicting `d1`
keeps exactly the `d2` entry and it still resolves. -/
theorem claim_C9_witness :
    clear_doc (strL "d1")
        [⟨strL "X", strL "d1", strL "class"⟩, ⟨strL "Y", strL "d2", strL "class"⟩]
      = [⟨strL "Y", strL "d2", strL "class"⟩] ∧
    dictGet (clear_doc (strL "d1")
        [⟨strL "X", strL "d1", strL "class"⟩, ⟨strL "Y", strL "d2", strL "class"⟩])
        (strL "Y") = some (strL "d2", strL "class") := by
  have h := claim_C9_clear_doc_evicts (strL "d1")
    [⟨strL "X", strL "d1", strL "class"⟩, ⟨strL "Y", strL "d2", strL "class"⟩] (by unfold keysNodup; decide)
  refine ⟨?_, ?_⟩
  · rw [h.1]; decide
  · exact (h.2.2 ⟨strL "Y", strL "d2", strL "class"⟩ (by decide) (by decide)).2

/-- Claim C10: whenever the rST nesting context supplies a current prefix,
the prefix parsed out of the declaration text is discarded and replaced by
it, so the registered full name is `current_prefix + "." + member`
whatever the written qualifier was; with no context prefix the parsed
signature — and hence its written prefix — is kept as is. -/
theorem claim_C10_scope_prefix_overrides
    (pat : RE) (p s : Str) (sig : DotNetSignature) (m : Str)
    (hp : parse_signature pat s = some sig) (hm : sig.member = some m) :
    (handle_signature pat (some p) s).bind DotNetSignature.full_name
      = some (p ++ '.' :: m) ∧
    handle_signature pat none s = some sig := by
  obtain ⟨pf, mem, args⟩ := sig
  have hm' : mem = some m := hm
  subst hm'
  constructor
  · simp [handle_signature, hp, DotNetSignature.full_name]
  · simp [handle_signature, hp]

/-- Claim C10 witness: declaration text `A.B.C` written with prefix `A.B`,
handled under scope prefix `X.Y`, registers `X.Y.C`; with no scope prefix
the written prefix survives. -/
theorem claim_C10_witness :
    (handle_signature DotNetCallable.signature_pattern (some (strL "X.Y"))
        (strL "A.B.C")).bind DotNetSignature.full_name
      = some (strL "X.Y" ++ '.' :: strL "C") ∧
    handle_signature DotNetCallable.signature_pattern none (strL "A.B.C")
      = some ⟨some (strL "A.B"), some (strL "C"), none⟩ :=
  claim_C10_scope_prefix_overrides DotNetCallable.signature_pattern (strL "X.Y")
    (strL "A.B.C") ⟨some (strL "A.B"), some (strL "C"), none⟩ (strL "C")
    (by decide) (by decide)

set_option maxRecDepth 40000 in
/-- Claim C5, counterexample: the constructor declaration `Foo.Bar`, whose
member is not the literal `#ctor`, parses successfully (the member
alternation of the constructor pattern is `(?:\#ctor|%(name)s)`, so any
member of the general name grammar is accepted too). -/
theorem claim_C5_counterexample :
    parse_signature DotNetConstructor.signature_pattern (strL "Foo.Bar")
      = some ⟨some (strL "Foo"), some (strL "Bar"), none⟩ := by
  decide

set_option maxRecDepth 40000 in
/-- Claim C5 (amended): a constructor declaration parses when its member,
after an optional dotted prefix and with an optional parenthesized
argument list, is either the literal `#ctor` or any token of the general
name grammar; `#ctor` without a dot separating it from the prefix still
fails. -/
theorem claim_C5_ctor_member_grammar :
    parse_signature DotNetConstructor.signature_pattern (strL "Foo.Bar.#ctor")
      = some ⟨some (strL "Foo.Bar"), some (strL "#ctor"), none⟩ ∧
    parse_signature DotNetConstructor.signature_pattern (strL "Foo.Bar.#ctor(arg1)")
      = some ⟨some (strL "Foo.Bar"), some (strL "#ctor"), some [strL "arg1"]⟩ ∧
    parse_signature DotNetConstructor.signature_pattern (strL "Foo.Bar")
      = some ⟨some (strL "Foo"), some (strL "Bar"), none⟩ ∧
    parse_signature DotNetConstructor.signature_pattern (strL "Foo.Bar#ctor") = none := by
  refine ⟨by decide, by decide, by decide, by decide⟩

set_option maxRecDepth 40000 in
/-- Claim C6: against the spec-modelled operator pattern, `Foo.operator <=`,
`Foo.operator true` and `Foo.implicit operator Bar.Baz` all parse with the
member capturing the whole operator phrase (keyword included, and for
implicit conversion also the destination type), while `Foo.operator foo`,
whose word is outside the fixed overloadable set, fails to parse. -/
theorem claim_C6_operator_grammar :
    parse_signature DotNetOperator.signature_pattern (strL "Foo.operator <=")
      = some ⟨some (strL "Foo"), some (strL "operator <="), none⟩ ∧
    parse_signature DotNetOperator.signature_pattern (strL "Foo.operator true")
      = some ⟨some (strL "Foo"), some (strL "operator true"), none⟩ ∧
    parse_signature DotNetOperator.signature_pattern (strL "Foo.implicit operator Bar.Baz")
      = some ⟨some (strL "Foo"), some (strL "implicit operator Bar.Baz"), none⟩ ∧
    parse_signature DotNetOperator.signature_pattern (strL "Foo.operator foo") = none := by
  refine ⟨by decide, by decide, by decide, by decide⟩

set_option maxRecDepth 40000 in
/-- Claim C7, counterexample: `Foo.Bar()` parses with argument list
`[""]` — a one-element list holding the empty string (Python's
`re.split` on the empty argument group), not the empty list the claim
describes. -/
theorem claim_C7_counterexample :
    parse_signature DotNetCallable.signature_pattern (strL "Foo.Bar()")
      = some ⟨some (strL "Foo"), some (strL "Bar"), some [strL ""]⟩ ∧
    ([strL ""] : List Str) ≠ [] := by
  refine ⟨by decide, by decide⟩

set_option maxRecDepth 40000 in
/-- Claim C7 (amended): the argument span is split on a comma followed by
whitespace and never on a bare comma, so `Foo.Bar(arg1, arg2)` yields
`["arg1", "arg2"]` and `Foo.Bar(a,b)` yields the single token `"a,b"`;
empty parens `Foo.Bar()` yield the present one-element list `[""]`
(splitting the empty span), and `Foo.Bar` without parens yields absent
arguments. -/
theorem claim_C7_argument_splitting :
    parse_signature DotNetCallable.signature_pattern (strL "Foo.Bar(arg1, arg2)")
      = some ⟨some (strL "Foo"), some (strL "Bar"), some [strL "arg1", strL "arg2"]⟩ ∧
    parse_signature DotNetCallable.signature_pattern (strL "Foo.Bar(a,b)")
      = some ⟨some (strL "Foo"), some (strL "Bar"), some [strL "a,b"]⟩ ∧
    parse_signature DotNetCallable.signature_pattern (strL "Foo.Bar()")
      = some ⟨some (strL "Foo"), some (strL "Bar"), some [strL ""]⟩ ∧
    parse_signature DotNetCallable.signature_pattern (strL "Foo.Bar")
      = some ⟨some (strL "Foo"), some (strL "Bar"), none⟩ := by
  refine ⟨by decide, by decide, by decide, by decide⟩

/-- A nonempty name is not `isEmpty`. -/
theorem isEmpty_false_of_ne_nil (name : Str) (hne : name ≠ []) :
    name.isEmpty = false := by
  cases name with
  | nil => exact absurd rfl hne
  | cons c rest => rfl

/-- Claim C3: in exact-match mode the compound key `prefix + "." + target`
is tried before the bare target, and each of those two steps accepts an
entry only when its kind is in the object-type filter: if the compound key
is registered with an accepted kind it is returned, and if the compound
key fails the kind test while the bare target passes it, the bare target
is returned. -/
theorem claim_C3_exact_mode_scope_preference
    (objects : List ObjEntry) (object_types : List Str) (p name : Str)
    (hnp : (strL "()").isSuffixOf name = false) (hne : name ≠ [])
    (hp : p ≠ []) :
    (∀ d t, dictGet objects (p ++ '.' :: name) = some (d, t) →
      object_types.contains t = true →
      find_obj objects object_types (some p) name 1
        = some (p ++ '.' :: name, (d, t))) ∧
    (kindMatches objects object_types (p ++ '.' :: name) = false →
      ∀ d t, dictGet objects name = some (d, t) → object_types.contains t = true →
      find_obj objects object_types (some p) name 1 = some (name, (d, t))) := by
  have hie := isEmpty_false_of_ne_nil name hne
  have hpe := isEmpty_false_of_ne_nil p hp
  constructor
  · intro d t hd hc
    have hkm : kindMatches objects object_types (p ++ '.' :: name) = true := by
      unfold kindMatches; rw [hd]; exact hc
    simp [find_obj, hnp, hie, pfxTruthy, hpe, hkm, hd]
  · intro hkm d t hd hc
    have hkm2 : kindMatches objects object_types name = true := by
      unfold kindMatches; rw [hd]; exact hc
    simp [find_obj, hnp, hie, pfxTruthy, hpe, hkm, hkm2, hd]

/-- Claim C3 witness: with `A.B.Target` and `Target` both registered as
methods, resolving `Target` under prefix `A.B` in exact mode returns
`A.B.Target`. -/
theorem claim_C3_witness :
    find_obj
        [⟨strL "A.B.Target", strL "d1", strL "method"⟩,
         ⟨strL "Target", strL "d2", strL "method"⟩]
        [strL "method"] (some (strL "A.B")) (strL "Target") 1
      = some (strL "A.B.Target", (strL "d1", strL "method")) := by
  have h := claim_C3_exact_mode_scope_preference
    [⟨strL "A.B.Target", strL "d1", strL "method"⟩,
     ⟨strL "Target", strL "d2", strL "method"⟩]
    [strL "method"] (strL "A.B") (strL "Target")
    (by decide) (by decide) (by decide)
  exact h.1 (strL "d1") (strL "method") (by decide) (by decide)

/-- Claim C4, counterexample: in default mode the kind filter is not
consulted: a bare `Target` registered as kind `cls` is returned even
though the filter admits only `method`, where the claim requires each step
to accept only entries registered under the kind filter. -/
theorem claim_C4_counterexample :
    find_obj [⟨strL "Target", strL "d", strL "cls"⟩] [strL "method"]
        (some (strL "A.B")) (strL "Target") 0
      = some (strL "Target", (strL "d", strL "cls")) ∧
    List.contains [strL "method"] (strL "cls") = false := by
  refine ⟨by decide, by decide⟩

/-- Claim C4 (amended): in default mode the resolver tries the bare target
first and only then the compound key, each accepted on mere registry
membership — the object-type filter plays no part — and when neither is
registered it returns NotFound without any suffix scan. -/
theorem claim_C4_default_mode_membership_only
    (objects : List ObjEntry) (object_types : List Str) (p name : Str)
    (hnp : (strL "()").isSuffixOf name = false) (hne : name ≠ []) :
    (∀ d t, dictGet objects name = some (d, t) →
      find_obj objects object_types (some p) name 0 = some (name, (d, t))) ∧
    (dictGet objects name = none → p ≠ [] →
      ∀ d t, dictGet objects (p ++ '.' :: name) = some (d, t) →
      find_obj objects object_types (some p) name 0
        = some (p ++ '.' :: name, (d, t))) ∧
    (dictGet objects name = none → dictGet objects (p ++ '.' :: name) = none →
      find_obj objects object_types (some p) name 0 = none) := by
  have hie := isEmpty_false_of_ne_nil name hne
  refine ⟨?_, ?_, ?_⟩
  · intro d t hd
    simp [find_obj, hnp, hie, dictHas, hd]
  · intro hbare hp d t hd
    have hpe := isEmpty_false_of_ne_nil p hp
    simp [find_obj, hnp, hie, dictHas, hbare, pfxTruthy, hpe, hd]
  · intro hbare hcomp
    simp [find_obj, hnp, hie, dictHas, hbare, pfxTruthy, hcomp]

/-- Claim C4 witness: with `A.B.Target` and `Target` both registered as
methods, default-mode resolution under prefix `A.B` returns the absolute
`Target`, not `A.B.Target`. -/
theorem claim_C4_witness :
    find_obj
        [⟨strL "A.B.Target", strL "d1", strL "method"⟩,
         ⟨strL "Target", strL "d2", strL "method"⟩]
        [strL "method"] (some (strL "A.B")) (strL "Target") 0
      = some (strL "Target", (strL "d2", strL "method")) := by
  have h := claim_C4_default_mode_membership_only
    [⟨strL "A.B.Target", strL "d1", strL "method"⟩,
     ⟨strL "Target", strL "d2", strL "method"⟩]
    [strL "method"] (strL "A.B") (strL "Target") (by decide) (by decide)
  exact h.1 (strL "d2") (strL "method") (by decide)

/-- Claim C2, counterexample: with `A.Target` (kind `method`, matching the
filter) registered before `B.Target` (kind `cls`, outside the filter), the
exact-mode suffix scan for `Target` returns `B.Target` — the *last* match
in registry iteration order, of a kind the filter does not admit — where
the claim predicts the first kind-matching key `A.Target`. -/
theorem claim_C2_counterexample :
    find_obj
        [⟨strL "A.Target", strL "d1", strL "method"⟩,
         ⟨strL "B.Target", strL "d2", strL "cls"⟩]
        [strL "method"] none (strL "Target") 1
      = some (strL "B.Target", (strL "d2", strL "cls")) ∧
    strL "B.Target" ≠ strL "A.Target" ∧
    List.contains [strL "method"] (strL "cls") = false := by
  refine ⟨by decide, by decide, by decide⟩

/-- Claim C2 (amended): in exact-match mode, when neither the compound key
nor the bare target passes the kind-filtered lookup, the resolver scans
the whole registry for keys ending in `"." + target` with no kind
filtering, and returns the last such key in registry iteration order
(`matches.pop()`), together with that key's stored value; it returns
NotFound exactly when no registered key has that suffix. -/
theorem claim_C2_suffix_scan_last_match
    (objects : List ObjEntry) (object_types : List Str) (pfx : Option Str)
    (name : Str)
    (hnp : (strL "()").isSuffixOf name = false) (hne : name ≠ [])
    (h1 : (pfxTruthy pfx && kindMatches objects object_types
        (match pfx with | some p => p ++ '.' :: name | none => name)) = false)
    (h2 : kindMatches objects object_types name = false) :
    find_obj objects object_types pfx name 1
      = ((suffixMatches objects name).getLast?).map
          (fun nn => (nn, (dictGet objects nn).getD ([], []))) ∧
    (find_obj objects object_types pfx name 1 = none ↔
      ∀ e ∈ objects, ('.' :: name).isSuffixOf e.name = false) := by
  have hie := isEmpty_false_of_ne_nil name hne
  have hmain : find_obj objects object_types pfx name 1
      = ((suffixMatches objects name).getLast?).map
          (fun nn => (nn, (dictGet objects nn).getD ([], []))) := by
    cases hlast : (suffixMatches objects name).getLast? with
    | none => simp [find_obj, hnp, hie, h1, h2, hlast]
    | some nn => simp [find_obj, hnp, hie, h1, h2, hlast]
  refine ⟨hmain, ?_⟩
  rw [hmain]
  constructor
  · intro hnone e he
    by_contra hsufne
    have hsuf : ('.' :: name).isSuffixOf e.name = true := by
      revert hsufne; cases ('.' :: name).isSuffixOf e.name <;> simp
    have hempty : suffixMatches objects name = [] := by
      rcases hopt : (suffixMatches objects name).getLast? with _ | nn
      · exact List.getLast?_eq_none_iff.mp hopt
      · rw [hopt] at hnone; simp at hnone
    have hmem : e.name ∈ suffixMatches objects name := by
      unfold suffixMatches
      exact List.mem_filter.mpr ⟨List.mem_map_of_mem (fun a => a.name) he, hsuf⟩
    rw [hempty] at hmem
    cases hmem
  · intro hall
    have hempty : suffixMatches objects name = [] := by
      unfold suffixMatches
      rw [List.filter_eq_nil_iff]
      intro n hn
      rcases List.mem_map.mp hn with ⟨e, he, rfl⟩
      simp [hall e he]
    rw [hempty]
    rfl

/-- Claim C2 witness: the amended suffix-scan behavior at the
counterexample registry, resolved through the theorem. -/
theorem claim_C2_witness :
    find_obj
        [⟨strL "A.Target", strL "d1", strL "method"⟩,
         ⟨strL "B.Target", strL "d2", strL "cls"⟩]
        [strL "method"] none (strL "Target") 1
      = some (strL "B.Target", (strL "d2", strL "cls")) := by
  have h := claim_C2_suffix_scan_last_match
    [⟨strL "A.Target", strL "d1", strL "method"⟩,
     ⟨strL "B.Target", strL "d2", strL "cls"⟩]
    [strL "method"] none (strL "Target")
    (by decide) (by decide) (by decide) (by decide)
  rw [h.1]
  decide

/-- The head of a list is a member. -/
theorem head?_mem_list {α : Type} {l : List α} {a : α} (h : l.head? = some a) :
    a ∈ l := by
  cases l with
  | nil => cases h
  | cons x xs =>
    have : x = a := by
      have := h
      simp [List.head?] at this
      exact this
    rw [← this]
    exact List.mem_cons_self _ _

/-- Soundness of the matcher: every returned triple splits the input into
the consumed part and the remaining part. -/
theorem runF_sound (f : Nat) : ∀ (re : RE) (s : Str) (x : Str × Caps × Str),
    x ∈ runF f re s → s = x.1 ++ x.2.2 := by
  induction f with
  | zero => intro re s x hx; simp [runF] at hx
  | succ f ih =>
    intro re s x hx
    cases re with
    | eps => simp [runF] at hx; rw [hx]; rfl
    | eos =>
      unfold runF at hx
      split at hx
      · next hs =>
        simp at hx
        rw [hx, hs]; rfl
      · simp at hx
    | cls p =>
      unfold runF at hx
      cases s with
      | nil => simp at hx
      | cons c rest =>
        by_cases hc : p c
        · simp [hc] at hx; rw [hx]; rfl
        · simp [hc] at hx
    | seq a b =>
      simp only [runF, List.mem_flatMap, List.mem_map] at hx
      obtain ⟨y, hy, z, hz, rfl⟩ := hx
      have h1 := ih a s y hy
      have h2 := ih b y.2.2 z hz
      show s = (y.1 ++ z.1) ++ z.2.2
      rw [h1, h2, List.append_assoc]
    | alt a b =>
      simp only [runF, List.mem_append] at hx
      rcases hx with hx | hx
      · exact ih a s x hx
      · exact ih b s x hx
    | star lzy a =>
      simp only [runF] at hx
      have hdeep : ∀ y ∈ (runF f a s).flatMap (fun y =>
          if y.1 = [] then []
          else (runF f (.star lzy a) y.2.2).map fun z =>
            (y.1 ++ z.1, y.2.1.merge z.2.1, z.2.2)), s = y.1 ++ y.2.2 := by
        intro y hy
        simp only [List.mem_flatMap] at hy
        obtain ⟨u, hu, hy2⟩ := hy
        split at hy2
        · simp at hy2
        · simp only [List.mem_map] at hy2
          obtain ⟨z, hz, rfl⟩ := hy2
          have h1 := ih a s u hu
          have h2 := ih (.star lzy a) u.2.2 z hz
          show s = (u.1 ++ z.1) ++ z.2.2
          rw [h1, h2, List.append_assoc]
      cases lzy with
      | true =>
        rw [if_pos rfl] at hx
        rcases List.mem_cons.mp hx with hx | hx
        · rw [hx]; rfl
        · exact hdeep x hx
      | false =>
        rw [if_neg Bool.false_ne_true] at hx
        rcases List.mem_append.mp hx with hx | hx
        · exact hdeep x hx
        · simp at hx; rw [hx]; rfl
    | opt lzy a =>
      simp only [runF] at hx
      cases lzy with
      | true =>
        rw [if_pos rfl] at hx
        rcases List.mem_cons.mp hx with hx | hx
        · rw [hx]; rfl
        · exact ih a s x hx
      | false =>
        rw [if_neg Bool.false_ne_true] at hx
        rcases List.mem_append.mp hx with hx | hx
        · exact ih a s x hx
        · simp at hx; rw [hx]; rfl
    | grp g a =>
      simp only [runF, List.mem_map] at hx
      obtain ⟨y, hy, rfl⟩ := hx
      exact ih a s y hy
    | nla a =>
      unfold runF at hx
      split at hx
      · simp at hx; rw [hx]; rfl
      · simp at hx

/-- Inversion for a sequencing match. -/
theorem mem_runF_seqE {f : Nat} {a b : RE} {s : Str} {x : Str × Caps × Str}
    (h : x ∈ runF (f + 1) (.seq a b) s) :
    ∃ y ∈ runF f a s, ∃ z ∈ runF f b y.2.2,
      x = (y.1 ++ z.1, y.2.1.merge z.2.1, z.2.2) := by
  simp only [runF, List.mem_flatMap, List.mem_map] at h
  obtain ⟨y, hy, z, hz, hxz⟩ := h
  exact ⟨y, hy, z, hz, hxz.symm⟩

/-- Inversion for a group match: the capture is the consumed text. -/
theorem mem_runF_grpE {f : Nat} {g : GroupName} {a : RE} {s : Str}
    {x : Str × Caps × Str} (h : x ∈ runF (f + 1) (.grp g a) s) :
    ∃ y ∈ runF f a s, x = (y.1, y.2.1.set g y.1, y.2.2) := by
  simp only [runF, List.mem_map] at h
  obtain ⟨y, hy, hxy⟩ := h
  exact ⟨y, hy, hxy.symm⟩

/-- Inversion for an optional part: matched or skipped. -/
theorem mem_runF_optE {f : Nat} {lzy : Bool} {a : RE} {s : Str}
    {x : Str × Caps × Str} (h : x ∈ runF (f + 1) (.opt lzy a) s) :
    x ∈ runF f a s ∨ x = ([], {}, s) := by
  unfold runF at h
  cases lzy with
  | true =>
    rw [if_pos rfl] at h
    rcases List.mem_cons.mp h with h | h
    · exact Or.inr h
    · exact Or.inl h
  | false =>
    rw [if_neg Bool.false_ne_true] at h
    rcases List.mem_append.mp h with h | h
    · exact Or.inl h
    · simp at h; exact Or.inr h

/-- Inversion for the anchor: only matches at the end. -/
theorem mem_runF_eosE {f : Nat} {s : Str} {x : Str × Caps × Str}
    (h : x ∈ runF (f + 1) .eos s) : s = [] ∧ x = ([], {}, []) := by
  unfold runF at h
  split at h
  · next hs => simp at h; exact ⟨hs, h⟩
  · simp at h

/-- Inversion for the empty pattern. -/
theorem mem_runF_epsE {f : Nat} {s : Str} {x : Str × Caps × Str}
    (h : x ∈ runF (f + 1) .eps s) : x = ([], {}, s) := by
  simp [runF] at h
  exact h

/-- Inversion for a class match. -/
theorem mem_runF_clsE {f : Nat} {p : Char → Bool} {s : Str}
    {x : Str × Caps × Str} (h : x ∈ runF (f + 1) (.cls p) s) :
    ∃ c rest, s = c :: rest ∧ p c = true ∧ x = ([c], {}, rest) := by
  unfold runF at h
  cases s with
  | nil => simp at h
  | cons c rest =>
    by_cases hc : p c
    · simp [hc] at h
      exact ⟨c, rest, rfl, hc, h⟩
    · simp [hc] at h

/-- A grouplless pattern fragment never records a capture. -/
theorem runF_noGrp_caps (f : Nat) : ∀ (re : RE), re.noGrp = true →
    ∀ (s : Str) (x : Str × Caps × Str), x ∈ runF f re s → x.2.1 = {} := by
  induction f with
  | zero => intro re _ s x hx; simp [runF] at hx
  | succ f ih =>
    intro re hng s x hx
    cases re with
    | eps => simp [runF] at hx; rw [hx]
    | eos =>
      unfold runF at hx
      split at hx
      · simp at hx; rw [hx]
      · simp at hx
    | cls p =>
      rcases mem_runF_clsE hx with ⟨c, rest, _, _, hxe⟩
      rw [hxe]
    | seq a b =>
      have hab := hng
      simp [RE.noGrp] at hab
      rcases mem_runF_seqE hx with ⟨y, hy, z, hz, hxe⟩
      have h1 := ih a hab.1 s y hy
      have h2 := ih b hab.2 y.2.2 z hz
      rw [hxe]
      show y.2.1.merge z.2.1 = {}
      rw [h1, h2]; rfl
    | alt a b =>
      have hab := hng
      simp [RE.noGrp] at hab
      simp only [runF, List.mem_append] at hx
      rcases hx with hx | hx
      · exact ih a hab.1 s x hx
      · exact ih b hab.2 s x hx
    | star lzy a =>
      have ha : a.noGrp = true := hng
      simp only [runF] at hx
      have hdeep : ∀ y ∈ (runF f a s).flatMap (fun y =>
          if y.1 = [] then []
          else (runF f (.star lzy a) y.2.2).map fun z =>
            (y.1 ++ z.1, y.2.1.merge z.2.1, z.2.2)), y.2.1 = ({} : Caps) := by
        intro y hy
        simp only [List.mem_flatMap] at hy
        obtain ⟨u, hu, hy2⟩ := hy
        split at hy2
        · simp at hy2
        · simp only [List.mem_map] at hy2
          obtain ⟨z, hz, rfl⟩ := hy2
          have h1 := ih a ha s u hu
          have h2 := ih (.star lzy a) hng u.2.2 z hz
          show u.2.1.merge z.2.1 = {}
          rw [h1, h2]; rfl
      cases lzy with
      | true =>
        rw [if_pos rfl] at hx
        rcases List.mem_cons.mp hx with hx | hx
        · rw [hx]
        · exact hdeep x hx
      | false =>
        rw [if_neg Bool.false_ne_true] at hx
        rcases List.mem_append.mp hx with hx | hx
        · exact hdeep x hx
        · simp at hx; rw [hx]
    | opt lzy a =>
      have ha : a.noGrp = true := hng
      rcases mem_runF_optE hx with hx | hx
      · exact ih a ha s x hx
      · rw [hx]
    | grp g a => simp [RE.noGrp] at hng
    | nla a =>
      unfold runF at hx
      split at hx
      · simp at hx; rw [hx]
      · simp at hx

/-- Soundness of the shared signature-pattern template: a successful
argument-free parse reconstructs exactly the input string as the
signature's full name (the matched text is `prefix "." member` or bare
`member`, and `full_name` joins the captured groups back the same way). -/
theorem parse_mkPattern_full_name (lz : Bool) (memRE : RE) (hA : Bool)
    (hng : memRE.noGrp = true) (s : Str) (sig : DotNetSignature)
    (hp : parse_signature (mkPattern lz memRE hA) s = some sig)
    (ha : sig.arguments = none) :
    sig.full_name = some s := by
  unfold parse_signature at hp
  cases hh : (runF (runFuel s) (mkPattern lz memRE hA) s).head? with
  | none => rw [hh] at hp; cases hp
  | some x =>
    rw [hh] at hp
    have hsig : sig = ⟨x.2.1.pfx, x.2.1.member, x.2.1.arguments.map (splitCS [])⟩ :=
      (Option.some.inj hp).symm
    have hmem : x ∈ runF (runFuel s) (mkPattern lz memRE hA) s := head?_mem_list hh
    have hF : 500 ≤ runFuel s := by unfold runFuel; omega
    obtain ⟨F, hFeq⟩ : ∃ F, runFuel s = F := ⟨_, rfl⟩
    rw [hFeq] at hmem hF
    clear hh hp hFeq
    unfold mkPattern at hmem
    obtain ⟨F1, rfl⟩ : ∃ k, F = k + 1 := ⟨F - 1, by omega⟩
    obtain ⟨yP, hyP, yR, hyR, hxeq⟩ := mem_runF_seqE hmem
    obtain ⟨F2, rfl⟩ : ∃ k, F1 = k + 1 := ⟨F1 - 1, by omega⟩
    obtain ⟨yM, hyM, yR2, hyR2, hyReq⟩ := mem_runF_seqE hyR
    obtain ⟨F3, rfl⟩ : ∃ k, F2 = k + 1 := ⟨F2 - 1, by omega⟩
    obtain ⟨yMi, hyMi, hyMeq⟩ := mem_runF_grpE hyM
    obtain ⟨yA, hyA, yE, hyE, hyR2eq⟩ := mem_runF_seqE hyR2
    obtain ⟨F4, rfl⟩ : ∃ k, F3 = k + 1 := ⟨F3 - 1, by omega⟩
    obtain ⟨hEnil, hyEeq⟩ := mem_runF_eosE hyE
    have hMi0 : yMi.2.1 = {} := runF_noGrp_caps _ memRE hng _ yMi hyMi
    have hsP : s = yP.1 ++ yP.2.2 := runF_sound _ _ _ _ hyP
    have hsM : yP.2.2 = yM.1 ++ yM.2.2 := runF_sound _ _ _ _ hyM
    have hsA : yM.2.2 = yA.1 ++ yA.2.2 := runF_sound _ _ _ _ hyA
    -- The optional argument part did not participate: otherwise the
    -- signature would carry a (present) argument list, against `ha`.
    have hAcase : yA.1 = [] ∧ yA.2.1 = ({} : Caps) := by
      cases hA with
      | false =>
        have := mem_runF_epsE hyA
        rw [this]
        exact ⟨rfl, rfl⟩
      | true =>
        rcases mem_runF_optE hyA with hmatch | hskip
        · exfalso
          obtain ⟨F5, rfl⟩ : ∃ k, F4 = k + 1 := ⟨F4 - 1, by omega⟩
          obtain ⟨yO, hyO, yIn, hyIn, hyAeq⟩ := mem_runF_seqE hmatch
          obtain ⟨F6, rfl⟩ : ∃ k, F5 = k + 1 := ⟨F5 - 1, by omega⟩
          obtain ⟨yG, hyG, yC, hyC, hyIneq⟩ := mem_runF_seqE hyIn
          obtain ⟨F7, rfl⟩ : ∃ k, F6 = k + 1 := ⟨F6 - 1, by omega⟩
          obtain ⟨yGi, hyGi, hyGeq⟩ := mem_runF_grpE hyG
          obtain ⟨cO, restO, _, _, hyOeq⟩ := mem_runF_clsE hyO
          obtain ⟨cC, restC, _, _, hyCeq⟩ := mem_runF_clsE hyC
          have hargs : x.2.1.arguments = some yGi.1 := by
            rw [hxeq, hyReq, hyR2eq, hyEeq, hyAeq, hyIneq, hyGeq, hyOeq, hyCeq]
            simp [Caps.merge, Caps.set]
          rw [hsig] at ha
          simp [hargs] at ha
        · rw [hskip]
          exact ⟨rfl, rfl⟩
    -- Analyze the optional prefix part.
    unfold pfxRE at hyP
    rcases mem_runF_optE hyP with hmatch | hskip
    · -- prefix group matched: s = pfx ++ "." ++ member
      obtain ⟨yW, hyW, yD, hyD, hyPeq⟩ := mem_runF_seqE hmatch
      obtain ⟨yWi, hyWi, hyWeq⟩ := mem_runF_grpE hyW
      have hW0 : yWi.2.1 = {} := by
        refine runF_noGrp_caps _ _ ?_ _ yWi hyWi
        cases lz <;> rfl
      obtain ⟨cD, restD, _, hcD, hyDeq⟩ := mem_runF_clsE hyD
      have hcD' : cD = '.' := by
        have h := hcD
        simp at h
        exact h
      have hx21 : x.2.1 = ⟨some yWi.1, some yMi.1, none⟩ := by
        rw [hxeq, hyReq, hyR2eq, hyEeq, hyMeq, hyPeq, hyWeq, hyDeq,
          hMi0, hW0, hAcase.2]
        simp [Caps.merge, Caps.set]
      rw [hsig, hx21]
      show some (yWi.1 ++ '.' :: yMi.1) = some s
      rw [hsP, hsM, hsA, hEnil, hyPeq, hyWeq, hyDeq, hyMeq, hAcase.1, hcD']
      simp
    · -- no prefix: s = member
      have hx21 : x.2.1 = ⟨none, some yMi.1, none⟩ := by
        rw [hxeq, hyReq, hyR2eq, hyEeq, hyMeq, hskip, hMi0, hAcase.2]
        simp [Caps.merge, Caps.set]
      rw [hsig, hx21]
      show some yMi.1 = some s
      rw [hsP, hsM, hsA, hEnil, hskip, hyMeq, hAcase.1]
      simp

/-- Claim C8: for any of the domain's signature patterns, an argument-free
signature produced by a successful parse round-trips: parsing its full
name again and taking the full name gives the same full name back
(`full_name` reconstructs exactly the parsed text, which re-parses to the
same signature). -/
theorem claim_C8_full_name_roundtrip
    (pat : RE) (s : Str) (sig : DotNetSignature) (fn : Str)
    (hpat : pat = DotNetObjectNested.signature_pattern ∨
            pat = DotNetCallable.signature_pattern ∨
            pat = DotNetConstructor.signature_pattern ∨
            pat = DotNetOperator.signature_pattern)
    (hp : parse_signature pat s = some sig)
    (ha : sig.arguments = none)
    (hf : sig.full_name = some fn) :
    (parse_signature pat fn).bind DotNetSignature.full_name = some fn := by
  have hfs : sig.full_name = some s := by
    rcases hpat with h | h | h | h <;> subst h
    · exact parse_mkPattern_full_name false nameRE false rfl s sig hp ha
    · exact parse_mkPattern_full_name false nameRE true rfl s sig hp ha
    · exact parse_mkPattern_full_name false (.alt (litRE (strL "#ctor")) nameRE) true
        rfl s sig hp ha
    · exact parse_mkPattern_full_name true opMemberRE true rfl s sig hp ha
  have hfn : fn = s := by
    rw [hfs] at hf
    exact (Option.some.inj hf).symm
  subst hfn
  rw [hp]
  exact hfs

/-- Claim C8 witness: the callable pattern at the argument-free
declaration `Foo.Bar`. -/
theorem claim_C8_witness :
    (parse_signature DotNetCallable.signature_pattern (strL "Foo.Bar")).bind
      DotNetSignature.full_name = some (strL "Foo.Bar") :=
  claim_C8_full_name_roundtrip DotNetCallable.signature_pattern (strL "Foo.Bar")
    ⟨some (strL "Foo"), some (strL "Bar"), none⟩ (strL "Foo.Bar")
    (Or.inr (Or.inl rfl)) (by decide) (by decide) (by decide)
